import Mathlib

/- Verification of the gotemplate-renderer engine: a shallow embedding of the
value-table operations (chartvalues / releasevalues), the chart-tree scope
derivation (recAllTpls), the template ordering (sortTemplates), the rendering
loop (renderTemplates / renderTemplate), the include recursion guard and the
required function, together with proofs of the specified properties.
Strings are processed on their character lists so that every operation is a
structural recursion the kernel can evaluate. -/

namespace GoRender

/- Splitting a character list at every occurrence of a single separator
character: the semantics of Go strings.Split with a one-character separator.
Splitting the empty string yields one empty piece, as in Go. -/
def splitChar (sep : Char) : List Char → List (List Char)
  | [] => [[]]
  | c :: rest =>
      if c = sep then [] :: splitChar sep rest
      else
        match splitChar sep rest with
        | [] => [[c]]
        | g :: gs => (c :: g) :: gs

/- Splitting a character list at every occurrence of the two-character
separator ": " (colon space): the semantics of Go strings.Split with that
separator, which the engine uses to take apart evaluator error text. -/
def splitColonSp : List Char → List (List Char)
  | [] => [[]]
  | [c] => [[c]]
  | c1 :: c2 :: rest =>
      if c1 = ':' ∧ c2 = ' ' then [] :: splitColonSp rest
      else
        match splitColonSp (c2 :: rest) with
        | [] => [[c1]]
        | g :: gs => (c1 :: g) :: gs

/- Whether the two-character separator ": " occurs anywhere in the list. -/
def containsColonSp : List Char → Bool
  | c1 :: c2 :: rest => (c1 = ':' && c2 = ' ') || containsColonSp (c2 :: rest)
  | _ => false

/- Boolean prefix test on character lists. -/
def isPre : List Char → List Char → Bool
  | [], _ => true
  | _ :: _, [] => false
  | a :: as, b :: bs => a = b && isPre as bs

/- Go values as decoded from YAML/JSON: scalars, lists, nested tables, plus
an explicit null (a nil interface) and a constructor for opaque non-map Go
values (structs such as the chart metadata or the files accessor), which the
table-lookup type assertions never treat as tables. Tables are association
lists; Go map keys are unique and lookups take the first match. Go has two
dynamic table types (map of string to any, and the named Values type) and
tableLookup treats both as tables, so they collapse into one constructor. -/
inductive GoVal where
  | vnull : GoVal
  | vbool : Bool → GoVal
  | vnum : Int → GoVal
  | vstr : String → GoVal
  | vlist : List GoVal → GoVal
  | vtable : List (String × GoVal) → GoVal
  | vstruct : String → GoVal

abbrev VTable := List (String × GoVal)

/- First-match association lookup, the model of a Go map read that
distinguishes a present key from an absent one. -/
def lookupAssoc {α : Type} : List (String × α) → String → Option α
  | [], _ => none
  | (k, v) :: rest, key => if k = key then some v else lookupAssoc rest key

/- A Go map read evaluates to the zero value (nil interface) when the key is
absent. -/
def getKeyD (t : VTable) (key : String) : GoVal :=
  (lookupAssoc t key).getD GoVal.vnull

/- A Go map assignment: replace the value of an existing key, else add it. -/
def setKey {α : Type} : List (String × α) → String → α → List (String × α)
  | [], k, v => [(k, v)]
  | (k', v') :: rest, k, v =>
      if k' = k then (k, v) :: rest else (k', v') :: setKey rest k v

/- Errors produced by the value-table operations. ErrNoTable is defined in
chartvalues.go; ErrNoValue and the empty-path error are referenced by the
releasevalues PathValue code, whose definitions are not among the provided
sources; they are modelled as tagged errors named by the offending key,
matching how that code constructs them. -/
inductive VErr where
  | noTable : String → VErr
  | noValue : String → VErr
  | emptyPath : VErr
deriving DecidableEq

/- IsTable from the releasevalues code: only a table matches the type
assertion. -/
def isTable : GoVal → Bool
  | GoVal.vtable _ => true
  | _ => false

/- tableLookup from chartvalues.go / releasevalues: a missing key or a
non-table value gives an ErrNoTable named by the key. -/
def tableLookup (v : VTable) (simple : String) : Except VErr VTable :=
  match lookupAssoc v simple with
  | none => Except.error (VErr.noTable simple)
  | some (GoVal.vtable t) => Except.ok t
  | some _ => Except.error (VErr.noTable simple)

/- ParsePath splits a dotted path on periods (strings.Split semantics). -/
def parsePath (key : String) : List String :=
  (splitChar '.' key.toList).map (fun l => String.mk l)

/- JoinPath joins path segments with periods (strings.Join semantics). -/
def joinPath (path : List String) : String := String.intercalate "." path

/- Values.Table: walk the dotted path segment by segment with tableLookup,
stopping at the first failure. -/
def valuesTable (v : VTable) (name : String) : Except VErr VTable :=
  (parsePath name).foldlM tableLookup v

/- The recursive helper pathValue from the releasevalues code. A one-segment
path is a direct key lookup that must not denote a table; a longer path first
resolves the leading segments as a table (via Table on the re-joined path)
and then looks up the final segment, which again must not denote a table.
The empty-path case is unreachable from PathValue since splitting a
non-empty string yields at least one segment. -/
def pathValueAux (v : VTable) (path : List String) : Except VErr GoVal :=
  match path with
  | [] => Except.error (VErr.noValue "")
  | [k] =>
      match lookupAssoc v k with
      | some x => if isTable x then Except.error (VErr.noValue k) else Except.ok x
      | none => Except.error (VErr.noValue k)
  | a :: b :: rest =>
      let key := (a :: b :: rest).getLastD ""
      let tablePath := (a :: b :: rest).dropLast
      match valuesTable v (joinPath tablePath) with
      | Except.error _ => Except.error (VErr.noValue key)
      | Except.ok t =>
          match lookupAssoc t key with
          | some x => if isTable x then Except.error (VErr.noValue key) else Except.ok x
          | none => Except.error (VErr.noValue key)

/- PathValue from the releasevalues code: an empty path string is a usage
error, otherwise delegate to pathValue on the parsed path. -/
def pathValue (v : VTable) (path : String) : Except VErr GoVal :=
  if path = "" then Except.error VErr.emptyPath
  else pathValueAux v (parsePath path)

/- The final segment of a dotted path. -/
def lastSegment (path : String) : String := (parsePath path).getLastD ""

/- The out-of-band delimiters engine.go wraps around required/fail messages
so that a clean user message can be recovered from the evaluator's
stack-prefixed error text. -/
def warnStartDelim : String := "HELM_ERR_START"

def warnEndDelim : String := "HELM_ERR_END"

def warnWrap (warn : String) : String := warnStartDelim ++ warn ++ warnEndDelim

/- Index of the first occurrence of a pattern (regexp matches start as early
as possible). -/
def findFirstIdx (pat : List Char) : List Char → Option Nat
  | [] => if isPre pat [] then some 0 else none
  | c :: rest =>
      if isPre pat (c :: rest) then some 0
      else (findFirstIdx pat rest).map (fun i => i + 1)

/- Index of the last occurrence of a pattern (a trailing greedy dot-star
extends the capture to the last occurrence of what follows it). -/
def findLastIdx (pat : List Char) : List Char → Option Nat
  | [] => if isPre pat [] then some 0 else none
  | c :: rest =>
      match findLastIdx pat rest with
      | some j => some (j + 1)
      | none => if isPre pat (c :: rest) then some 0 else none

/- The submatch of warnRegex, the regexp delimited by the start and end
delimiters whose single group is captured greedily with dot matching
newlines: everything from the first start delimiter up to the last end
delimiter. -/
def extractWarnChars (s : List Char) : Option (List Char) :=
  match findFirstIdx warnStartDelim.toList s with
  | none => none
  | some i =>
      let rest := s.drop (i + warnStartDelim.toList.length)
      match findLastIdx warnEndDelim.toList rest with
      | none => none
      | some j => some (rest.take j)

def extractWarn (s : String) : Option String :=
  (extractWarnChars s.toList).map (fun l => String.mk l)

/- The required template function from engine.go initFunMap: a nil value, or
an empty string value, is missing; in lint mode a missing value logs and
yields an empty string, otherwise it fails with the delimiter-wrapped
message. Any other value passes through unchanged. -/
def requiredFun (lintMode : Bool) (warn : String) (val : GoVal) : Except String GoVal :=
  match val with
  | GoVal.vnull =>
      if lintMode then Except.ok (GoVal.vstr "")
      else Except.error (warnWrap warn)
  | GoVal.vstr s =>
      if s = "" then
        if lintMode then Except.ok (GoVal.vstr "")
        else Except.error (warnWrap warn)
      else Except.ok (GoVal.vstr s)
  | v => Except.ok v

/- The include recursion bound from engine.go. -/
def recursionMaxNums : Int := 1000

/- Depths are integers because a Go map decrement of a missing key would
store minus one. -/
abbrev NameDepths := List (String × Int)

def getDepth (names : NameDepths) (name : String) : Int :=
  (lookupAssoc names name).getD 0

/- The error text includeFun produces when the nesting bound is exceeded. -/
def includeErrText (name : String) : String :=
  "rendering template has a nested reference name: " ++ name
    ++ ": unable to execute template"

/- includeFun from engine.go: look up the per-name nesting depth; if the
recorded depth already exceeds the bound, fail without executing anything;
otherwise record the incremented depth (one for a previously unseen name),
execute the named template, and decrement afterwards. Template execution is
abstracted as a function from the depth table to a depth table and a
result, since executing the template may itself call include. -/
def includeFun (includedNames : NameDepths) (name : String)
    (execTemplate : NameDepths → NameDepths × Except String String) :
    NameDepths × Except String String :=
  match lookupAssoc includedNames name with
  | some v =>
      if v > recursionMaxNums then
        (includedNames, Except.error (includeErrText name))
      else
        let res := execTemplate (setKey includedNames name (v + 1))
        (setKey res.1 name (getDepth res.1 name - 1), res.2)
  | none =>
      let res := execTemplate (setKey includedNames name 1)
      (setKey res.1 name (getDepth res.1 name - 1), res.2)

/- A template that includes itself n more times and then produces output:
the bounded self-inclusion scenario. -/
def selfIncludeN (names : NameDepths) (name : String) : Nat → NameDepths × Except String String
  | 0 => (names, Except.ok "done")
  | Nat.succ n => includeFun names name (fun ns => selfIncludeN ns name n)

/- A template that includes itself unconditionally, forever. The definition
is total: the recursion guard in includeFun (inlined here so the decreasing
depth is visible) bounds the nesting, which is the claimed property that an
unbounded self-include terminates with a failure instead of looping. -/
def selfIncludeForever (names : NameDepths) (name : String) :
    NameDepths × Except String String :=
  if hv : getDepth names name > recursionMaxNums then
    (names, Except.error (includeErrText name))
  else
    let res := selfIncludeForever (setKey names name (getDepth names name + 1)) name
    (setKey res.1 name (getDepth res.1 name - 1), res.2)
termination_by (1001 - getDepth names name).toNat
decreasing_by
  have hset : ∀ (l : NameDepths) (k : String) (w : Int),
      lookupAssoc (setKey l k w) k = some w := by
    intro l k w
    induction l with
    | nil => simp [setKey, lookupAssoc]
    | cons p rest ih =>
        obtain ⟨k1, v1⟩ := p
        by_cases hk : k1 = k
        · simp [setKey, hk, lookupAssoc]
        · simp [setKey, hk, lookupAssoc, ih]
  have h2 : getDepth (setKey names name (getDepth names name + 1)) name
      = getDepth names name + 1 := by
    simp [getDepth, hset]
  simp only [recursionMaxNums] at hv
  omega

/- A renderable entry from engine.go: template text, the values scope, and
the base path of the chart's templates. -/
structure Renderable where
  tpl : String
  vals : VTable
  basePath : String

/- Count of path-separator characters, as strings.Count of a slash. -/
def countSlash (s : String) : Nat := s.toList.count '/'

/- Lexicographic strict comparison of character lists by code point, the
semantics of Go strings.Compare returning minus one: byte-wise comparison of
valid UTF-8 agrees with code-point order. -/
def charListLess : List Char → List Char → Bool
  | [], [] => false
  | [], _ :: _ => true
  | _ :: _, [] => false
  | a :: as, b :: bs =>
      if a < b then true
      else if b < a then false
      else charListLess as bs

/- The byPathLen comparator from engine.go: ascending separator count, with
ties broken by ascending lexicographic comparison of the full path. -/
def byPathLenLess (a b : String) : Bool :=
  if countSlash a = countSlash b then charListLess a.toList b.toList
  else decide (countSlash a < countSlash b)

/- The order in which sortTemplates actually emits keys: ascending with
respect to the reversed comparator, that is a before b when the comparator
does not place a strictly before b. -/
def templOrder (a b : String) : Prop := byPathLenLess a b = false

instance templOrder_decidable : DecidableRel templOrder :=
  fun a b => inferInstanceAs (Decidable (byPathLenLess a b = false))

/- sortTemplates from engine.go collects the map keys and sorts them with
the reversed byPathLen comparator. Keys of a Go map are distinct and the
reversed comparator is a strict total order on distinct keys, so the sorted
result is the unique permutation ordered by templOrder; insertion sort over
templOrder models it. -/
def sortTemplates (tpls : List (String × Renderable)) : List String :=
  List.insertionSort templOrder (tpls.map Prod.fst)

/- The fixed placeholder text the evaluator emits for shapes it cannot
default. -/
def noValueTok : List Char := ['<', 'n', 'o', ' ', 'v', 'a', 'l', 'u', 'e', '>']

/- Deletion of every left-to-right non-overlapping occurrence of the fixed
evaluator placeholder, the semantics of strings.ReplaceAll of the no-value
token with the empty string: at a position where the token starts, the
whole token is skipped and scanning resumes after it, else one character is
kept. The fuel argument, always at least the list length, only makes the
recursion structural. -/
def dropNoValueAux : Nat → List Char → List Char
  | 0, s => s
  | Nat.succ _, [] => []
  | Nat.succ n, c :: rest =>
      if isPre noValueTok (c :: rest) then dropNoValueAux n ((c :: rest).drop 10)
      else c :: dropNoValueAux n rest

/- Number of occurrences the same scan finds. -/
def countNoValueAux : Nat → List Char → Nat
  | 0, _ => 0
  | Nat.succ _, [] => 0
  | Nat.succ n, c :: rest =>
      if isPre noValueTok (c :: rest) then 1 + countNoValueAux n ((c :: rest).drop 10)
      else countNoValueAux n rest

/- Whether the placeholder token occurs anywhere. -/
def containsNoValue : List Char → Bool
  | [] => false
  | c :: rest => isPre noValueTok (c :: rest) || containsNoValue rest

def dropNoValue (s : List Char) : List Char := dropNoValueAux s.length s

def countNoValue (s : List Char) : Nat := countNoValueAux s.length s

def stripNoValue (s : String) : String := String.mk (dropNoValue s.toList)

/- Go path.Base: the empty path gives a dot, trailing slashes are removed,
everything up to the final slash is removed, and a path of only slashes
gives a single slash. -/
def pathBase (s : String) : String :=
  if s.toList = [] then "."
  else
    let t := (s.toList.reverse.dropWhile (fun c => c = '/')).reverse
    if t = [] then "/"
    else String.mk ((t.reverse.takeWhile (fun c => c ≠ '/')).reverse)

/- Whether a renderable key names a partial template: its base name starts
with the reserved underscore. -/
def isPartialName (filename : String) : Bool :=
  isPre ['_'] (pathBase filename).toList

/- An error coming out of template execution: whether it has the dynamic
type of the evaluator's ExecError, and its text. -/
structure GoError where
  isExecErr : Bool
  text : String

/- Inverse of the ": " split, the semantics of strings.Join. -/
def rejoinColonSp : List (List Char) → List Char
  | [] => []
  | [p] => p
  | p :: q :: rest => p ++ ':' :: ' ' :: rejoinColonSp (q :: rest)

/- Go strings.SplitN with the ": " separator and a limit of three: the
first two pieces of the full split, with the remaining pieces rejoined
into the third. -/
def splitN3ColonSp (s : List Char) : List (List Char) :=
  match splitColonSp s with
  | p0 :: p1 :: p2 :: rest => [p0, p1, rejoinColonSp (p2 :: rest)]
  | other => other

/- cleanupParseError from engine.go: error text without any ": " keeps the
whole text behind an in-file prefix; otherwise the second colon-delimited
token is the file-and-line location and the last token the final message. -/
def cleanupParseError (filename : String) (errText : String) : String :=
  match splitColonSp errText.toList with
  | [] => "parse error in (" ++ filename ++ "): " ++ errText
  | [_] => "parse error in (" ++ filename ++ "): " ++ errText
  | _ :: loc :: rest =>
      "parse error at (" ++ String.mk loc ++ "): "
        ++ String.mk ((loc :: rest).getLastD [])

/- The last colon-delimited token of a text, the final message extracted by
cleanupParseError. -/
def finalColonTok (rest : String) : String :=
  String.mk ((splitColonSp rest.toList).getLastD [])

/- cleanupExecError from engine.go: a non-ExecError passes through; an
ExecError is split into three at most, needing exactly three tokens, and
the delimited warning inside the third token, when present, is surfaced
after the location; otherwise the error passes through unchanged. -/
def cleanupExecError (filename : String) (err : GoError) : String :=
  if err.isExecErr = false then err.text
  else
    match splitN3ColonSp err.text.toList with
    | [_, t1, t2] =>
        match extractWarnChars t2 with
        | some captured =>
            "execution error at (" ++ String.mk t1 ++ "): " ++ String.mk captured
        | none => err.text
    | _ => "execution error in (" ++ filename ++ "): " ++ err.text

/- The Template metadata value injected into a scope before execution. -/
def templateMeta (filename basePath : String) : GoVal :=
  GoVal.vtable [("Name", GoVal.vstr filename), ("BasePath", GoVal.vstr basePath)]

/- renderTemplate assigns vals with the Template key before executing; the
local variable copies only the Go map header of the stored scope, so the
assignment lands in the renderable's own scope table, which afterwards is
exactly this: -/
def renderTemplateScopeAfter (filename : String) (r : Renderable) : VTable :=
  setKey r.vals "Template" (templateMeta filename r.basePath)

/- renderTemplate from engine.go: execute the named template against the
scope with Template injected; an execution failure (the recovered panic is
folded into the abstract executor) yields an empty rendered string and the
cleaned-up error, a success yields the output with every placeholder
occurrence deleted. Execution itself is the evaluator capability, abstracted
as a function argument. -/
def renderTemplate (execT : String → VTable → Except GoError String)
    (filename : String) (r : Renderable) : String × Option String :=
  match execT filename (renderTemplateScopeAfter filename r) with
  | Except.error err => ("", some (cleanupExecError filename err))
  | Except.ok out => (stripNoValue out, none)

/- The Go map read tpls of filename inside the render loops; the keys always
come from the map, so the default is never seen. -/
def lookupRend (tpls : List (String × Renderable)) (k : String) : Renderable :=
  (lookupAssoc tpls k).getD (Renderable.mk "" [] "")

/- The parse loop of renderTemplates: parse every entry in order into the
shared namespace and stop at the first failure. Parsing is the evaluator
capability, abstracted as a function from name and text to an optional
error text. -/
def firstParseErr (parse : String → String → Option String)
    (tpls : List (String × Renderable)) : List String → Option (String × String)
  | [] => none
  | k :: rest =>
      match parse k (lookupRend tpls k).tpl with
      | some e => some (k, e)
      | none => firstParseErr parse tpls rest

/- errors.Join: nil when every collected error is nil, otherwise the
newline-joined non-nil messages. -/
def goErrorsJoin (errs : List (Option String)) : Option String :=
  match errs.filterMap id with
  | [] => none
  | e :: es => some (String.intercalate "\n" (e :: es))

/- One step of the execution loop of renderTemplates: skip partials, render
everything else, record the rendered text under the key even on failure,
and append the error slot. -/
def renderStep (execT : String → VTable → Except GoError String)
    (tpls : List (String × Renderable))
    (acc : List (String × String) × List (Option String)) (k : String) :
    List (String × String) × List (Option String) :=
  if isPartialName k then acc
  else
    let res := renderTemplate execT k (lookupRend tpls k)
    (acc.1 ++ [(k, res.1)], acc.2 ++ [res.2])

/- renderTemplates from engine.go: parse all entries in the deterministic
order, aborting the whole pass with a cleaned-up parse error and no outputs
on the first failure; then execute every non-partial entry in the same
order, collecting outputs and errors. The error slice starts with one nil
slot per entry, as the Go code allocates it with make, which errors.Join
then ignores. -/
def renderTemplates (parse : String → String → Option String)
    (execT : String → VTable → Except GoError String)
    (tpls : List (String × Renderable)) :
    List (String × String) × Option String :=
  match firstParseErr parse tpls (sortTemplates tpls) with
  | some pe => ([], some (cleanupParseError pe.1 pe.2))
  | none =>
      (((sortTemplates tpls).foldl (renderStep execT tpls)
          ([], List.replicate tpls.length (none : Option String))).1,
       goErrorsJoin (((sortTemplates tpls).foldl (renderStep execT tpls)
          ([], List.replicate tpls.length (none : Option String))).2))

/- A chart node: name, the metadata type field, the raw template sources
(name and content, with possible null entries), and the dependency charts.
The other chart fields (files bundle, remaining metadata) are opaque to the
scoping logic and appear in scopes as opaque struct values. -/
inductive Chart where
  | mk : String → String → List (Option (String × String)) → List Chart → Chart

def chartName : Chart → String
  | Chart.mk nm _ _ _ => nm

/- strings.EqualFold restricted to ASCII case folding, which covers the
library type tag the code compares against. -/
def asciiLowerChar (c : Char) : Char :=
  if 'A' ≤ c ∧ c ≤ 'Z' then Char.ofNat (c.toNat + 32) else c

def equalFold (a b : String) : Bool :=
  decide (a.toList.map asciiLowerChar = b.toList.map asciiLowerChar)

def isLibraryType (mtype : String) : Bool := equalFold mtype "library"

/- isTemplateValid from engine.go, keyed on the chart type: a library chart
accepts only partial templates, every other chart accepts everything. -/
def isTemplateValidT (mtype : String) (templateName : String) : Bool :=
  if isLibraryType mtype then isPre ['_'] (pathBase templateName).toList
  else true

/- Go path.Join for the already-clean segments the walker produces. -/
def pathJoin (a b : String) : String :=
  if a = "" then b else if b = "" then a else a ++ "/" ++ b

/- The scope construction of recAllTpls from engine.go, before the subchart
table is filled in. The literal map holds the fixed keys, among them the
misspelled literal key chartutil.Values bound to a fresh empty table; the
Values key is then set for the root verbatim, or to the sub-table when the
lookup of Values.<name> in the parent scope succeeds, and is not set at all
when that lookup fails. -/
def deriveNextScope (nm : String) (vals : VTable) (isRoot : Bool) : VTable :=
  let nextBase : VTable :=
    [("Chart", GoVal.vstruct "chartMetadata"),
     ("Files", GoVal.vstruct "files"),
     ("Release", getKeyD vals "Release"),
     ("Capabilities", getKeyD vals "Capabilities"),
     ("chartutil.Values", GoVal.vtable []),
     ("Subcharts", GoVal.vtable [])]
  if isRoot then setKey nextBase "Values" (getKeyD vals "Values")
  else
    match valuesTable vals ("Values." ++ nm) with
    | Except.ok vs => setKey nextBase "Values" (GoVal.vtable vs)
    | Except.error _ => nextBase

/- recAllTpls from engine.go: derive this node's scope from the parent
scope, recurse into every dependency with that scope as parent, fill the
scope's Subcharts table with each child's own resolved scope, and register
every valid, non-null template source under the chart-path-qualified key
with the final scope and the templates base path. The chart full path is
threaded explicitly, as the Helm chart API computes it from the parent
chain as the parent path extended with charts/<name>; the Go map of
collected templates becomes an association list. The children read only
scope keys that the Go code sets before recursing, so filling Subcharts
after the recursion is observationally the same as the shared-map flow of
the original. -/
def recAllTpls (c : Chart) (vals : VTable) (isRoot : Bool) (fullPath : String) :
    List (String × Renderable) × VTable :=
  match c with
  | Chart.mk nm mtype tplSources deps =>
      let next1 := deriveNextScope nm vals isRoot
      let children := deps.attach.map
        (fun ch => (chartName ch.1,
          recAllTpls ch.1 next1 false (fullPath ++ "/charts/" ++ chartName ch.1)))
      let nextFinal := setKey next1 "Subcharts"
        (GoVal.vtable (children.map (fun p => (p.1, GoVal.vtable p.2.2))))
      let ownTpls := tplSources.foldr
        (fun t acc =>
          match t with
          | none => acc
          | some td =>
              if isTemplateValidT mtype td.1 then
                (pathJoin fullPath td.1,
                  Renderable.mk td.2 nextFinal (pathJoin fullPath "templates")) :: acc
              else acc) []
      ((children.map (fun p => p.2.1)).flatten ++ ownTpls, nextFinal)
termination_by sizeOf c
decreasing_by
  rename_i mtype2 tplSources2 deps2
  have h1 : sizeOf ch.1 < sizeOf deps2 := List.sizeOf_lt_of_mem ch.2
  simp only [Chart.mk.sizeOf_spec]
  omega

/- Demonstration tree for the scope derivation: a root chart with one
dependency named db, and caller values containing an empty Values table, so
the sub-chart has no matching overrides section. -/
def demoDb : Chart := Chart.mk "db" "" [] []

def demoVals : VTable := [("Values", GoVal.vtable [])]

theorem splitChar_ne_nil (sep : Char) (s : List Char) : splitChar sep s ≠ [] := by
  induction s with
  | nil => simp [splitChar]
  | cons c rest ih =>
      by_cases hc : c = sep
      · simp [splitChar, hc]
      · simp only [splitChar, if_neg hc]
        cases h : splitChar sep rest with
        | nil => simp
        | cons g gs => simp

theorem splitColonSp_ne_nil (s : List Char) : splitColonSp s ≠ [] := by
  induction s with
  | nil => simp [splitColonSp]
  | cons c rest ih =>
      cases rest with
      | nil => simp [splitColonSp]
      | cons c2 rest' =>
          by_cases h : c = ':' ∧ c2 = ' '
          · simp [splitColonSp, h]
          · simp only [splitColonSp, if_neg h]
            cases hs : splitColonSp (c2 :: rest') with
            | nil => simp
            | cons g gs => simp

/- Pieces of a split of a ": "-free chunk followed by ": " followed by the
rest: the chunk is the first piece and the rest splits on its own. This is
the key structural fact used to normalise evaluator error messages. -/
theorem splitColonSp_append (a b : List Char) (h : containsColonSp a = false) :
    splitColonSp (a ++ ':' :: ' ' :: b) = a :: splitColonSp b := by
  induction a with
  | nil => simp [splitColonSp]
  | cons c tail ih =>
      cases tail with
      | nil =>
          have hcs : ¬ (c = ':' ∧ ':' = ' ') := by
            intro hc
            exact absurd hc.2 (by decide)
          simp [splitColonSp, hcs]
      | cons c2 tail' =>
          have hsplit : containsColonSp (c :: c2 :: tail') = false := h
          have h1 : ¬ (c = ':' ∧ c2 = ' ') := by
            intro hc
            simp [containsColonSp, hc.1, hc.2] at hsplit
          have h2 : containsColonSp (c2 :: tail') = false := by
            simp [containsColonSp] at hsplit
            exact hsplit.2
          simp only [List.cons_append, splitColonSp, if_neg h1]
          have := ih h2
          simp only [List.cons_append] at this
          simp [List.append_eq, this]

theorem isPre_append (p t : List Char) : isPre p (p ++ t) = true := by
  induction p with
  | nil => simp [isPre]
  | cons c cs ih => simp [isPre, ih]

theorem isPre_length {p s : List Char} (h : isPre p s = true) : p.length ≤ s.length := by
  induction p generalizing s with
  | nil => simp
  | cons c cs ih =>
      cases s with
      | nil => simp [isPre] at h
      | cons b bs =>
          simp only [isPre, Bool.and_eq_true] at h
          have := ih h.2
          simp only [List.length_cons]
          omega

theorem lookupAssoc_setKey_self {α : Type} (l : List (String × α)) (k : String) (v : α) :
    lookupAssoc (setKey l k v) k = some v := by
  induction l with
  | nil => simp [setKey, lookupAssoc]
  | cons p rest ih =>
      obtain ⟨k', v'⟩ := p
      by_cases hk : k' = k
      · simp [setKey, hk, lookupAssoc]
      · simp [setKey, hk, lookupAssoc, ih]

theorem lookupAssoc_setKey_other {α : Type} (l : List (String × α)) (k k' : String) (v : α)
    (h : k' ≠ k) : lookupAssoc (setKey l k v) k' = lookupAssoc l k' := by
  induction l with
  | nil =>
      simp only [setKey, lookupAssoc]
      rw [if_neg (fun he => h he.symm)]
  | cons p rest ih =>
      obtain ⟨k0, v0⟩ := p
      by_cases hk : k0 = k
      · subst hk
        have : k0 ≠ k' := fun he => h he.symm
        simp [setKey, lookupAssoc, this]
      · simp only [setKey, if_neg hk, lookupAssoc]
        by_cases hk' : k0 = k'
        · simp [hk']
        · simp [hk', ih]

theorem pathValueAux_ok_not_table (v : VTable) (path : List String) (x : GoVal)
    (h : pathValueAux v path = Except.ok x) : isTable x = false := by
  match path with
  | [] => simp [pathValueAux] at h
  | [k] =>
      simp only [pathValueAux] at h
      cases hl : lookupAssoc v k with
      | none => rw [hl] at h; simp at h
      | some y =>
          rw [hl] at h
          by_cases ht : isTable y = true
          · simp [ht] at h
          · simp only [Bool.not_eq_true] at ht
            simp [ht] at h
            rw [← h]
            exact ht
  | a :: b :: rest =>
      simp only [pathValueAux] at h
      cases htab : valuesTable v (joinPath ((a :: b :: rest).dropLast)) with
      | error e => rw [htab] at h; simp at h
      | ok t =>
          rw [htab] at h
          simp only at h
          cases hl : lookupAssoc t ((a :: b :: rest).getLastD "") with
          | none => rw [hl] at h; simp at h
          | some y =>
              rw [hl] at h
              by_cases ht : isTable y = true
              · simp [ht] at h
              · simp only [Bool.not_eq_true] at ht
                simp [ht] at h
                rw [← h]
                exact ht

theorem pathValueAux_error_named (v : VTable) (path : List String) (e : VErr)
    (hne : path ≠ []) (h : pathValueAux v path = Except.error e) :
    e = VErr.noValue (path.getLastD "") := by
  match path with
  | [] => exact absurd rfl hne
  | [k] =>
      simp only [pathValueAux] at h
      cases hl : lookupAssoc v k with
      | none =>
          rw [hl] at h
          simp at h
          simp [h]
      | some y =>
          rw [hl] at h
          by_cases ht : isTable y = true
          · simp [ht] at h
            simp [h]
          · simp [ht] at h
  | a :: b :: rest =>
      simp only [pathValueAux] at h
      cases htab : valuesTable v (joinPath ((a :: b :: rest).dropLast)) with
      | error e' =>
          rw [htab] at h
          simp at h
          simpa using h.symm
      | ok t =>
          rw [htab] at h
          simp only at h
          cases hl : lookupAssoc t ((a :: b :: rest).getLastD "") with
          | none =>
              rw [hl] at h
              simp at h
              simpa using h.symm
          | some y =>
              rw [hl] at h
              by_cases ht : isTable y = true
              · simp [ht] at h
                simpa using h.symm
              · simp [ht] at h

theorem parsePath_ne_nil (p : String) : parsePath p ≠ [] := by
  simp only [parsePath, ne_eq, List.map_eq_nil_iff]
  exact splitChar_ne_nil '.' p.toList

/-- C9: pathValue returns a leaf value only when it exists and is not itself
a table; every failure on a non-empty path is a no-such-value error named by
the final path segment; and the empty path string is rejected as a usage
error, not a lookup miss. -/
theorem pathValue_spec (v : VTable) (p : String) :
    (pathValue v "" = Except.error VErr.emptyPath)
    ∧ (∀ x : GoVal, pathValue v p = Except.ok x → isTable x = false)
    ∧ (p ≠ "" → ∀ e : VErr, pathValue v p = Except.error e →
        e = VErr.noValue (lastSegment p)) := by
  refine ⟨by simp [pathValue], ?_, ?_⟩
  · intro x h
    by_cases hp : p = ""
    · simp [pathValue, hp] at h
    · simp only [pathValue, if_neg hp] at h
      exact pathValueAux_ok_not_table v (parsePath p) x h
  · intro hp e h
    simp only [pathValue, if_neg hp] at h
    exact pathValueAux_error_named v (parsePath p) e (parsePath_ne_nil p) h

/-- C9 witness: on the concrete table with a scalar at key a and a sub-table
at key sub, the theorem applies: the scalar leaf comes back and is not a
table, and the lookup of the table-valued leaf fails with the no-such-value
error named by the leaf segment. -/
theorem pathValue_spec_witness :
    isTable (GoVal.vnum 1) = false
    ∧ VErr.noValue "sub" = VErr.noValue (lastSegment "sub") := by
  constructor
  · exact (pathValue_spec [("a", GoVal.vnum 1), ("sub", GoVal.vtable [])] "a").2.1
      (GoVal.vnum 1) (by rfl)
  · exact (pathValue_spec [("a", GoVal.vnum 1), ("sub", GoVal.vtable [])] "sub").2.2
      (by decide) (VErr.noValue "sub") (by rfl)

theorem isPre_refl (p : List Char) : isPre p p = true := by
  induction p with
  | nil => simp [isPre]
  | cons c cs ih => simp [isPre, ih]

theorem findFirstIdx_self (pat t : List Char) (hp : pat ≠ []) :
    findFirstIdx pat (pat ++ t) = some 0 := by
  cases pat with
  | nil => exact absurd rfl hp
  | cons p ps =>
      simp only [List.cons_append, findFirstIdx]
      rw [if_pos]
      simpa [List.append_eq] using isPre_append (p :: ps) t

theorem findLastIdx_short (pat s : List Char) (h : s.length < pat.length) :
    findLastIdx pat s = none := by
  induction s with
  | nil =>
      cases pat with
      | nil => simp at h
      | cons p ps => simp [findLastIdx, isPre]
  | cons c rest ih =>
      have hr : rest.length < pat.length := by
        simp only [List.length_cons] at h
        omega
      simp only [findLastIdx, ih hr]
      rw [if_neg]
      intro hpre
      have := isPre_length hpre
      omega

theorem findLastIdx_append_self (pat m : List Char) (hp : pat ≠ []) :
    findLastIdx pat (m ++ pat) = some m.length := by
  induction m with
  | nil =>
      cases pat with
      | nil => exact absurd rfl hp
      | cons p ps =>
          simp only [List.nil_append, findLastIdx]
          rw [findLastIdx_short (p :: ps) ps (by simp)]
          rw [if_pos (isPre_refl (p :: ps))]
          rfl
  | cons c m' ih =>
      simp only [List.cons_append, findLastIdx, List.append_eq, ih, List.length_cons]

/- The delimiter extraction recovers exactly the wrapped message: the first
start delimiter is the leading one and the last end delimiter is the
trailing one, whatever the message contains. -/
theorem extractWarn_warnWrap (m : String) : extractWarn (warnWrap m) = some m := by
  have hchars : (warnWrap m).toList
      = warnStartDelim.toList ++ (m.toList ++ warnEndDelim.toList) := by
    simp [warnWrap, String.toList, String.data_append]
  have hstart : warnStartDelim.toList ≠ [] := by decide
  have hend : warnEndDelim.toList ≠ [] := by decide
  simp only [extractWarn, extractWarnChars, hchars]
  rw [findFirstIdx_self warnStartDelim.toList (m.toList ++ warnEndDelim.toList) hstart]
  simp only [Nat.zero_add, List.drop_left]
  rw [findLastIdx_append_self warnEndDelim.toList m.toList hend]
  simp only [List.take_left, Option.map_some]
  rfl

/-- C5: required returns the value unchanged whenever it is non-nil and, for
strings, non-empty; otherwise in normal mode it fails carrying the wrapped
message whose delimiter extraction (the mechanism that produces the
user-visible message) is exactly the given message with no decoration, and
in lint mode it returns an empty string without failing. -/
theorem required_spec (warn : String) :
    (∀ (lintMode : Bool) (val : GoVal), val ≠ GoVal.vnull →
        (∀ s, val = GoVal.vstr s → s ≠ "") →
        requiredFun lintMode warn val = Except.ok val)
    ∧ requiredFun false warn GoVal.vnull = Except.error (warnWrap warn)
    ∧ requiredFun false warn (GoVal.vstr "") = Except.error (warnWrap warn)
    ∧ extractWarn (warnWrap warn) = some warn
    ∧ requiredFun true warn GoVal.vnull = Except.ok (GoVal.vstr "")
    ∧ requiredFun true warn (GoVal.vstr "") = Except.ok (GoVal.vstr "") := by
  refine ⟨?_, rfl, rfl, extractWarn_warnWrap warn, rfl, rfl⟩
  intro lintMode val hnn hns
  cases val with
  | vnull => exact absurd rfl hnn
  | vstr s =>
      have : s ≠ "" := hns s rfl
      simp [requiredFun, this]
  | vbool b => rfl
  | vnum n => rfl
  | vlist l => rfl
  | vtable t => rfl
  | vstruct tag => rfl

/-- C5 witness: the theorem applied at a non-nil number, which passes
through unchanged. -/
theorem required_spec_witness :
    requiredFun false "msg" (GoVal.vnum 7) = Except.ok (GoVal.vnum 7) :=
  (required_spec "msg").1 false (GoVal.vnum 7)
    (fun h => GoVal.noConfusion h)
    (fun _ h => GoVal.noConfusion h)

/- selfIncludeForever is exactly includeFun applied to the template body
that includes itself again: a recorded depth of zero and an absent record
increment identically, so the two branch shapes of includeFun coincide with
the single getDepth-based branch. -/
theorem selfIncludeForever_eq_include (names : NameDepths) (name : String) :
    selfIncludeForever names name
      = includeFun names name (fun ns => selfIncludeForever ns name) := by
  cases hl : lookupAssoc names name with
  | some v =>
      have hd : getDepth names name = v := by simp [getDepth, hl]
      by_cases hv : v > recursionMaxNums
      · rw [selfIncludeForever]
        simp [includeFun, hl, hd, hv]
      · rw [selfIncludeForever]
        simp [includeFun, hl, hd, hv]
  | none =>
      have hd : getDepth names name = 0 := by simp [getDepth, hl]
      have hz : ¬ (0 : Int) > recursionMaxNums := by simp [recursionMaxNums]
      rw [selfIncludeForever]
      simp [includeFun, hl, hd, hz]

theorem selfIncludeForever_at (name : String) (n : Nat) :
    ∀ v : Int, v = 1001 - (n : Int) →
      selfIncludeForever [(name, v)] name
        = ([(name, v)], Except.error (includeErrText name)) := by
  induction n with
  | zero =>
      intro v hv
      rw [selfIncludeForever]
      rw [dif_pos (by simp [getDepth, lookupAssoc, recursionMaxNums]; omega)]
  | succ n ih =>
      intro v hv
      have hd : getDepth [(name, v)] name = v := by simp [getDepth, lookupAssoc]
      have hvle : ¬ getDepth [(name, v)] name > recursionMaxNums := by
        rw [hd]
        simp only [recursionMaxNums]
        push_cast at hv
        omega
      rw [selfIncludeForever]
      rw [dif_neg hvle]
      simp only [hd]
      have hset : setKey [(name, v)] name (v + 1) = [(name, v + 1)] := by
        simp [setKey]
      rw [hset]
      have hrec := ih (v + 1) (by push_cast at hv ⊢; omega)
      rw [hrec]
      simp [getDepth, lookupAssoc, setKey]

theorem selfIncludeForever_nil (name : String) :
    (selfIncludeForever [] name).2 = Except.error (includeErrText name) := by
  rw [selfIncludeForever_eq_include [] name]
  simp only [includeFun, lookupAssoc, setKey]
  rw [selfIncludeForever_at name 1000 1 (by norm_num)]

/-- C4: include maintains a per-name nesting depth; a call finding a
recorded depth beyond the bound of a thousand fails immediately with the
recursion error, leaving the depths untouched and never invoking template
execution; a call within the bound executes with the depth incremented and
decrements it afterwards; a template including itself exactly five times
succeeds; and a template including itself unconditionally terminates with
the recursion-limit failure instead of looping forever. -/
theorem include_recursion_guard :
    (∀ (names : NameDepths) (name : String) (v : Int)
        (execTemplate : NameDepths → NameDepths × Except String String),
        lookupAssoc names name = some v → v > recursionMaxNums →
        includeFun names name execTemplate
          = (names, Except.error (includeErrText name)))
    ∧ (∀ (names : NameDepths) (name : String) (v : Int)
        (execTemplate : NameDepths → NameDepths × Except String String),
        lookupAssoc names name = some v → ¬ v > recursionMaxNums →
        includeFun names name execTemplate
          = (setKey (execTemplate (setKey names name (v + 1))).1 name
               (getDepth (execTemplate (setKey names name (v + 1))).1 name - 1),
             (execTemplate (setKey names name (v + 1))).2))
    ∧ (∀ (names : NameDepths) (name : String),
        selfIncludeForever names name
          = includeFun names name (fun ns => selfIncludeForever ns name))
    ∧ (selfIncludeN [] "t" 5).2 = Except.ok "done"
    ∧ (selfIncludeForever [] "t").2 = Except.error (includeErrText "t") := by
  refine ⟨?_, ?_, selfIncludeForever_eq_include, by rfl, selfIncludeForever_nil "t"⟩
  · intro names name v execTemplate hl hv
    simp [includeFun, hl, hv]
  · intro names name v execTemplate hl hv
    simp [includeFun, hl, hv]

/-- C4 witness: at a depth table recording a thousand and one nested calls
for the template name, include fails immediately with the recursion error
and the depth table unchanged, whatever the template body would do. -/
theorem include_recursion_guard_witness :
    includeFun [("t", 1001)] "t" (fun ns => (ns, Except.ok ""))
      = ([("t", 1001)], Except.error (includeErrText "t")) :=
  include_recursion_guard.1 [("t", 1001)] "t" 1001 (fun ns => (ns, Except.ok ""))
    (by rfl) (by decide)

theorem charListLess_trans {a b c : List Char} (h1 : charListLess a b = true)
    (h2 : charListLess b c = true) : charListLess a c = true := by
  induction a generalizing b c with
  | nil =>
      cases b with
      | nil => simp [charListLess] at h1
      | cons y ys =>
          cases c with
          | nil => simp [charListLess] at h2
          | cons z zs => simp [charListLess]
  | cons x xs ih =>
      cases b with
      | nil => simp [charListLess] at h1
      | cons y ys =>
          cases c with
          | nil => simp [charListLess] at h2
          | cons z zs =>
              simp only [charListLess] at h1 h2 ⊢
              rcases lt_trichotomy x y with hxy | hxy | hxy
              · rcases lt_trichotomy y z with hyz | hyz | hyz
                · rw [if_pos (lt_trans hxy hyz)]
                · subst hyz
                  rw [if_pos hxy]
                · rw [if_neg (lt_asymm hyz), if_pos hyz] at h2
                  simp at h2
              · subst hxy
                rw [if_neg (lt_irrefl x), if_neg (lt_irrefl x)] at h1
                rcases lt_trichotomy x z with hyz | hyz | hyz
                · rw [if_pos hyz]
                · subst hyz
                  rw [if_neg (lt_irrefl x), if_neg (lt_irrefl x)] at h2 ⊢
                  exact ih h1 h2
                · rw [if_neg (lt_asymm hyz), if_pos hyz] at h2
                  simp at h2
              · rw [if_neg (lt_asymm hxy), if_pos hxy] at h1
                simp at h1

theorem charListLess_asymm {a b : List Char} (h : charListLess a b = true) :
    charListLess b a = false := by
  induction a generalizing b with
  | nil =>
      cases b with
      | nil => simp [charListLess] at h
      | cons y ys => simp [charListLess]
  | cons x xs ih =>
      cases b with
      | nil => simp [charListLess] at h
      | cons y ys =>
          simp only [charListLess] at h ⊢
          rcases lt_trichotomy x y with hxy | hxy | hxy
          · rw [if_neg (lt_asymm hxy), if_pos hxy]
          · subst hxy
            rw [if_neg (lt_irrefl x), if_neg (lt_irrefl x)] at h ⊢
            exact ih h
          · rw [if_neg (lt_asymm hxy), if_pos hxy] at h
            simp at h

theorem charListLess_conn {a b : List Char} (h : charListLess a b = false)
    (h' : charListLess b a = false) : a = b := by
  induction a generalizing b with
  | nil =>
      cases b with
      | nil => rfl
      | cons y ys => simp [charListLess] at h
  | cons x xs ih =>
      cases b with
      | nil => simp [charListLess] at h'
      | cons y ys =>
          simp only [charListLess] at h h'
          rcases lt_trichotomy x y with hxy | hxy | hxy
          · rw [if_pos hxy] at h
            simp at h
          · subst hxy
            rw [if_neg (lt_irrefl x), if_neg (lt_irrefl x)] at h h'
            rw [ih h h']
          · rw [if_pos hxy] at h'
            simp at h'

theorem byPathLenLess_false_iff (a b : String) :
    byPathLenLess a b = false ↔
      (countSlash b < countSlash a
        ∨ (countSlash a = countSlash b ∧ charListLess a.toList b.toList = false)) := by
  unfold byPathLenLess
  by_cases h : countSlash a = countSlash b
  · rw [if_pos h]
    constructor
    · intro hf
      right
      exact ⟨h, hf⟩
    · intro hor
      cases hor with
      | inl h1 => omega
      | inr h2 => exact h2.2
  · rw [if_neg h]
    simp only [decide_eq_false_iff_not, not_lt]
    constructor
    · intro hle
      left
      omega
    · intro hor
      cases hor with
      | inl h1 => omega
      | inr h2 => exact absurd h2.1 h

instance templOrder_total : IsTotal String templOrder := by
  constructor
  intro a b
  rw [templOrder, templOrder, byPathLenLess_false_iff, byPathLenLess_false_iff]
  rcases lt_trichotomy (countSlash a) (countSlash b) with h | h | h
  · right
    left
    exact h
  · by_cases hab : charListLess a.toList b.toList = true
    · right
      right
      exact ⟨h.symm, charListLess_asymm hab⟩
    · left
      right
      exact ⟨h, by simpa using hab⟩
  · left
    left
    exact h

instance templOrder_trans : IsTrans String templOrder := by
  constructor
  intro a b c hab hbc
  rw [templOrder, byPathLenLess_false_iff] at hab hbc ⊢
  rcases hab with h1 | ⟨h1, h1s⟩
  · rcases hbc with h2 | ⟨h2, h2s⟩
    · left
      omega
    · left
      omega
  · rcases hbc with h2 | ⟨h2, h2s⟩
    · left
      omega
    · right
      refine ⟨by omega, ?_⟩
      by_cases hba : charListLess b.toList a.toList = true
      · by_cases hcb : charListLess c.toList b.toList = true
        · exact charListLess_asymm (charListLess_trans hcb hba)
        · have hcb2 : c.toList = b.toList :=
            charListLess_conn (by simpa using hcb) h2s
          rw [hcb2]
          exact h1s
      · have hba2 : a.toList = b.toList :=
          charListLess_conn h1s (by simpa using hba)
        rw [hba2]
        exact h2s

/-- C2 amended: the deterministic processing order sorts keys primarily by
descending separator count and secondarily, among keys with equal separator
counts, by descending lexicographic order of the full path (the reversal
applies to the tie-break as well), and it is a permutation of the entry
keys. -/
theorem sortTemplates_perm (tpls : List (String × Renderable)) :
    (sortTemplates tpls).Perm (tpls.map Prod.fst) :=
  List.perm_insertionSort templOrder (tpls.map Prod.fst)

theorem sortTemplates_order (tpls : List (String × Renderable)) :
    (sortTemplates tpls).Pairwise (fun a b =>
        countSlash b < countSlash a
          ∨ (countSlash a = countSlash b ∧ charListLess a.toList b.toList = false))
    ∧ (sortTemplates tpls).Perm (tpls.map Prod.fst) := by
  constructor
  · have hs := List.sorted_insertionSort templOrder (tpls.map Prod.fst)
    exact List.Pairwise.imp (fun hab => (byPathLenLess_false_iff _ _).mp hab) hs
  · exact sortTemplates_perm tpls

/-- C2 counterexample: two keys with equal separator counts where the first
is lexicographically smaller come out in descending, not ascending,
lexicographic order. -/
theorem sortTemplates_tie_not_ascending :
    sortTemplates [("a", Renderable.mk "" [] ""), ("b", Renderable.mk "" [] "")]
        = ["b", "a"]
    ∧ countSlash "a" = countSlash "b"
    ∧ charListLess "a".toList "b".toList = true := by
  refine ⟨by decide, by decide, by decide⟩

theorem dropNoValueAux_length (n : Nat) :
    ∀ s : List Char, s.length ≤ n →
      (dropNoValueAux n s).length + 10 * countNoValueAux n s = s.length := by
  induction n with
  | zero =>
      intro s hs
      simp [dropNoValueAux, countNoValueAux]
  | succ n ih =>
      intro s hs
      cases s with
      | nil => simp [dropNoValueAux, countNoValueAux]
      | cons c rest =>
          by_cases hp : isPre noValueTok (c :: rest) = true
          · have hlen : 10 ≤ (c :: rest).length := by
              have := isPre_length hp
              simpa [noValueTok] using this
            have hr := ih ((c :: rest).drop 10)
              (by simp only [List.length_drop, List.length_cons] at hs ⊢; omega)
            simp only [dropNoValueAux, countNoValueAux, if_pos hp]
            simp only [List.length_drop, List.length_cons] at hr
            simp only [List.length_cons] at hlen hs ⊢
            omega
          · have hr := ih rest (by simp at hs ⊢; omega)
            simp only [dropNoValueAux, countNoValueAux, if_neg hp, List.length_cons]
            omega

theorem dropNoValueAux_id (n : Nat) :
    ∀ s : List Char, s.length ≤ n → containsNoValue s = false →
      dropNoValueAux n s = s := by
  induction n with
  | zero =>
      intro s hs hc
      simp [dropNoValueAux]
  | succ n ih =>
      intro s hs hc
      cases s with
      | nil => simp [dropNoValueAux]
      | cons c rest =>
          simp only [containsNoValue, Bool.or_eq_false_iff] at hc
          simp [dropNoValueAux, hc.1]
          exact ih rest (by simp at hs; omega) hc.2

theorem dropNoValue_length (s : List Char) :
    (dropNoValue s).length + 10 * countNoValue s = s.length :=
  dropNoValueAux_length s.length s le_rfl

theorem dropNoValue_id (s : List Char) (h : containsNoValue s = false) :
    dropNoValue s = s :=
  dropNoValueAux_id s.length s le_rfl h

/-- C3 counterexample: rendering an entry whose stored scope is empty leaves
the Template key in the stored scope, so the original scope table is not
unchanged after execution. -/
theorem renderTemplate_mutates_scope :
    renderTemplateScopeAfter "t" (Renderable.mk "x" [] "bp")
      ≠ (Renderable.mk "x" [] "bp").vals := by
  simp [renderTemplateScopeAfter, setKey, templateMeta]

/-- C3 amended: the Template key holding the template name and base path is
assigned directly into the entry's stored scope table, which the local
variable aliases rather than copies: after execution the scope holds
exactly that Template value, and every other key of the scope is unchanged. -/
theorem renderTemplate_scope_after (filename : String) (r : Renderable) :
    lookupAssoc (renderTemplateScopeAfter filename r) "Template"
      = some (templateMeta filename r.basePath)
    ∧ ∀ k, k ≠ "Template" →
        lookupAssoc (renderTemplateScopeAfter filename r) k = lookupAssoc r.vals k :=
  ⟨lookupAssoc_setKey_self r.vals "Template" (templateMeta filename r.basePath),
   fun k hk => lookupAssoc_setKey_other r.vals "Template" k (templateMeta filename r.basePath) hk⟩

/-- C3 witness: the theorem applied at a concrete entry whose scope binds
one ordinary key, which is untouched by the injection. -/
theorem renderTemplate_scope_after_witness :
    lookupAssoc (renderTemplateScopeAfter "t" (Renderable.mk "" [("x", GoVal.vnum 1)] "bp")) "x"
      = lookupAssoc [("x", GoVal.vnum 1)] "x" :=
  (renderTemplate_scope_after "t" (Renderable.mk "" [("x", GoVal.vnum 1)] "bp")).2
    "x" (by decide)

/-- C7 counterexample: a successful execution whose raw evaluator output is
the placeholder with its own fragments spliced around it renders to a
string that still contains the placeholder: the single deletion pass joins
the surrounding fragments into a new occurrence. -/
theorem rendered_output_can_contain_placeholder :
    (renderTemplate (fun _ _ => Except.ok "<no va<no value>lue>") "t"
        (Renderable.mk "" [] "")).1 = "<no value>"
    ∧ containsNoValue ("<no value>".toList) = true := by
  constructor
  · rfl
  · decide

/-- C7 amended: the renderer post-processes every successful output with a
single left-to-right non-overlapping deletion pass of the fixed placeholder
(as does tpl for its own output): every occurrence found by the scan is
deleted, so the output shrinks by exactly ten characters per occurrence
found, and an output free of the placeholder is returned unchanged; but the
deletions can splice surrounding text into a new occurrence, so the
returned string is not guaranteed to contain zero occurrences. -/
theorem rendered_output_stripped (execT : String → VTable → Except GoError String)
    (filename : String) (r : Renderable) (raw : String)
    (h : execT filename (renderTemplateScopeAfter filename r) = Except.ok raw) :
    (renderTemplate execT filename r).1 = stripNoValue raw
    ∧ (stripNoValue raw).toList.length + 10 * countNoValue raw.toList
        = raw.toList.length
    ∧ (containsNoValue raw.toList = false → stripNoValue raw = raw) := by
  refine ⟨?_, ?_, ?_⟩
  · simp [renderTemplate, h]
  · simpa [stripNoValue] using dropNoValue_length raw.toList
  · intro hc
    show String.mk (dropNoValue raw.toList) = raw
    rw [dropNoValue_id raw.toList hc]
    rfl

/-- C7 witness: the amended theorem applied to a concrete execution whose
raw output has one placeholder occurrence in plain text, which is deleted. -/
theorem rendered_output_stripped_witness :
    (renderTemplate (fun _ _ => Except.ok "a<no value>b") "t"
        (Renderable.mk "" [] "")).1 = stripNoValue "a<no value>b" :=
  (rendered_output_stripped (fun _ _ => Except.ok "a<no value>b") "t"
    (Renderable.mk "" [] "") "a<no value>b" (by rfl)).1

theorem renderFold_spec (execT : String → VTable → Except GoError String)
    (tpls : List (String × Renderable)) (keys : List String)
    (acc1 : List (String × String)) (acc2 : List (Option String)) :
    keys.foldl (renderStep execT tpls) (acc1, acc2)
      = (acc1 ++ (keys.filter (fun k => !isPartialName k)).map
            (fun k => (k, (renderTemplate execT k (lookupRend tpls k)).1)),
         acc2 ++ (keys.filter (fun k => !isPartialName k)).map
            (fun k => (renderTemplate execT k (lookupRend tpls k)).2)) := by
  induction keys generalizing acc1 acc2 with
  | nil => simp
  | cons k ks ih =>
      by_cases hp : isPartialName k = true
      · simp only [List.foldl_cons, renderStep, if_pos hp]
        rw [ih]
        rw [List.filter_cons_of_neg (by simp [hp])]
      · have hp' : isPartialName k = false := by simpa using hp
        simp only [List.foldl_cons, renderStep, if_neg hp]
        rw [ih]
        rw [List.filter_cons_of_pos (by simp [hp'])]
        simp [List.append_assoc]

theorem firstParseErr_none_of (parse : String → String → Option String)
    (tpls : List (String × Renderable)) (keys : List String)
    (h : ∀ k ∈ keys, parse k (lookupRend tpls k).tpl = none) :
    firstParseErr parse tpls keys = none := by
  induction keys with
  | nil => rfl
  | cons k ks ih =>
      simp only [firstParseErr]
      rw [h k (by simp)]
      exact ih (fun k' hk' => h k' (by simp [hk']))

theorem firstParseErr_some_of (parse : String → String → Option String)
    (tpls : List (String × Renderable)) (keys : List String) (k : String)
    (hk : k ∈ keys) (hfail : parse k (lookupRend tpls k).tpl ≠ none) :
    firstParseErr parse tpls keys ≠ none := by
  induction keys with
  | nil => simp at hk
  | cons k0 ks ih =>
      simp only [firstParseErr]
      cases hpk : parse k0 (lookupRend tpls k0).tpl with
      | some e => simp
      | none =>
          simp only []
          rcases List.mem_cons.mp hk with he | hm
          · subst he
            exact absurd hpk hfail
          · exact ih hm

theorem lookupAssoc_keysMap {β : Type} (f : String → β) (keys : List String)
    (k : String) (hk : k ∈ keys) :
    lookupAssoc (keys.map (fun x => (x, f x))) k = some (f k) := by
  induction keys with
  | nil => simp at hk
  | cons k0 ks ih =>
      simp only [List.map_cons, lookupAssoc]
      by_cases h0 : k0 = k
      · subst h0
        simp
      · rw [if_neg h0]
        rcases List.mem_cons.mp hk with he | hm
        · exact absurd he.symm h0
        · exact ih hm

theorem lookupAssoc_keysMap_none {β : Type} (f : String → β) (keys : List String)
    (k : String) (hk : k ∉ keys) :
    lookupAssoc (keys.map (fun x => (x, f x))) k = none := by
  induction keys with
  | nil => rfl
  | cons k0 ks ih =>
      simp only [List.map_cons, lookupAssoc]
      rw [if_neg (fun he => hk (by simp [he]))]
      exact ih (fun hm => hk (by simp [hm]))

theorem lookupAssoc_some_mem {α : Type} (l : List (String × α)) (k : String) (r : α)
    (h : lookupAssoc l k = some r) : (k, r) ∈ l := by
  induction l with
  | nil => simp [lookupAssoc] at h
  | cons p rest ih =>
      obtain ⟨k0, r0⟩ := p
      simp only [lookupAssoc] at h
      by_cases h0 : k0 = k
      · rw [if_pos h0] at h
        subst h0
        simp at h
        simp [h]
      · rw [if_neg h0] at h
        simp [ih h]

theorem lookupAssoc_of_mem_nodup {α : Type} (l : List (String × α)) (k : String) (r : α)
    (hnd : (l.map Prod.fst).Nodup) (hm : (k, r) ∈ l) : lookupAssoc l k = some r := by
  induction l with
  | nil => simp at hm
  | cons p rest ih =>
      obtain ⟨k0, r0⟩ := p
      simp only [List.map_cons, List.nodup_cons] at hnd
      rcases List.mem_cons.mp hm with he | hmr
      · have hk : k0 = k := (congrArg Prod.fst he).symm
        have hr : r0 = r := (congrArg Prod.snd he).symm
        simp only [lookupAssoc]
        rw [if_pos hk, hr]
      · simp only [lookupAssoc]
        by_cases h0 : k0 = k
        · subst h0
          exact absurd (List.mem_map.mpr ⟨(k0, r), hmr, rfl⟩) hnd.1
        · rw [if_neg h0]
          exact ih hnd.2 hmr

theorem lookupAssoc_ne_none_of_mem_fst {α : Type} (l : List (String × α)) (k : String)
    (h : k ∈ l.map Prod.fst) : lookupAssoc l k ≠ none := by
  induction l with
  | nil => simp at h
  | cons p rest ih =>
      obtain ⟨k0, r0⟩ := p
      simp only [lookupAssoc]
      by_cases h0 : k0 = k
      · simp [h0]
      · rw [if_neg h0]
        apply ih
        simp only [List.map_cons, List.mem_cons] at h
        rcases h with he | hm
        · exact absurd he.symm h0
        · exact hm

theorem goErrorsJoin_eq_none_iff (errs : List (Option String)) :
    goErrorsJoin errs = none ↔ ∀ e ∈ errs, e = none := by
  constructor
  · intro h e he
    unfold goErrorsJoin at h
    cases hf : errs.filterMap id with
    | nil => exact List.filterMap_eq_nil_iff.mp hf e he
    | cons x xs =>
        rw [hf] at h
        simp at h
  · intro h
    unfold goErrorsJoin
    have hnil : errs.filterMap id = [] := by
      rw [List.filterMap_eq_nil_iff]
      intro a ha
      exact h a ha
    rw [hnil]

/-- C6: a parse failure on any entry aborts the whole render pass with no
rendered outputs and no template executed (the result does not depend on
the executor at all), and for error text in the evaluator's colon-delimited
shape the failure is rewritten to the parse-error form carrying the
file-and-line location and the final message. -/
theorem parse_failure_aborts :
    (∀ (parse : String → String → Option String)
        (execT execT' : String → VTable → Except GoError String)
        (tpls : List (String × Renderable)) (k : String) (r : Renderable) (e : String),
        (tpls.map Prod.fst).Nodup → (k, r) ∈ tpls → parse k r.tpl = some e →
        (renderTemplates parse execT tpls).1 = []
        ∧ renderTemplates parse execT tpls = renderTemplates parse execT' tpls)
    ∧ (∀ filename loc rest : String, containsColonSp loc.toList = false →
        cleanupParseError filename ("template: " ++ loc ++ ": " ++ rest)
          = "parse error at (" ++ loc ++ "): " ++ finalColonTok rest) := by
  constructor
  · intro parse execT execT' tpls k r e hnd hm hp
    have hlr : lookupRend tpls k = r := by
      unfold lookupRend
      rw [lookupAssoc_of_mem_nodup tpls k r hnd hm]
      rfl
    have hkk : k ∈ sortTemplates tpls :=
      (sortTemplates_perm tpls).mem_iff.mpr (List.mem_map.mpr ⟨(k, r), hm, rfl⟩)
    have hfail : parse k (lookupRend tpls k).tpl ≠ none := by
      rw [hlr, hp]
      simp
    have hsome := firstParseErr_some_of parse tpls (sortTemplates tpls) k hkk hfail
    cases hpe : firstParseErr parse tpls (sortTemplates tpls) with
    | none => exact absurd hpe hsome
    | some pe =>
        constructor
        · unfold renderTemplates
          rw [hpe]
        · unfold renderTemplates
          rw [hpe]
  · intro filename loc rest h
    have ha : "template: ".toList = "template".toList ++ [':', ' '] := by decide
    have hchars : ("template: " ++ loc ++ ": " ++ rest).toList
        = "template".toList ++ ':' :: ' ' :: (loc.toList ++ ':' :: ' ' :: rest.toList) := by
      show ("template: " ++ loc ++ ": " ++ rest).data
        = "template".toList ++ ':' :: ' ' :: (loc.toList ++ ':' :: ' ' :: rest.toList)
      rw [String.data_append, String.data_append, String.data_append]
      have hb : ": ".data = [':', ' '] := by decide
      rw [show "template: ".data = "template".toList ++ [':', ' '] from ha, hb]
      simp [String.toList]
    have hsplit : splitColonSp (("template: " ++ loc ++ ": " ++ rest).toList)
        = "template".toList :: loc.toList :: splitColonSp rest.toList := by
      rw [hchars]
      rw [splitColonSp_append "template".toList _ (by decide)]
      rw [splitColonSp_append loc.toList _ h]
    unfold cleanupParseError
    rw [hsplit]
    dsimp only
    have h2 : (loc.toList :: splitColonSp rest.toList).getLastD []
        = (splitColonSp rest.toList).getLastD [] := by
      cases hsp : splitColonSp rest.toList with
      | nil => exact absurd hsp (splitColonSp_ne_nil rest.toList)
      | cons x xs => simp [List.getLastD]
    rw [h2]
    rfl

/-- C6 witness: applied at a one-entry table whose parse fails, the pass
returns no outputs, and a concrete evaluator-shaped error text is rewritten
to the parse-error form. -/
theorem parse_failure_aborts_witness :
    (renderTemplates (fun _ _ => some "boom")
        (fun _ _ => Except.ok "out") [("a", Renderable.mk "x" [] "bp")]).1 = []
    ∧ cleanupParseError "f" ("template: " ++ "a:3" ++ ": " ++ "bad char")
        = "parse error at (" ++ "a:3" ++ "): " ++ finalColonTok "bad char" := by
  constructor
  · exact (parse_failure_aborts.1 (fun _ _ => some "boom")
      (fun _ _ => Except.ok "out") (fun _ _ => Except.ok "out")
      [("a", Renderable.mk "x" [] "bp")] "a" (Renderable.mk "x" [] "bp") "boom"
      (by simp) (by simp) (by rfl)).1
  · exact parse_failure_aborts.2 "f" "a:3" "bad char" (by decide)

/-- C8: a template whose base name starts with the reserved underscore
never appears as a key of the rendered output map; execution never touches
partials (executors agreeing on non-partials produce identical results);
and partials are parsed all the same, since a partial whose parse fails
aborts the pass. -/
theorem partials_not_rendered :
    (∀ (parse : String → String → Option String)
        (execT : String → VTable → Except GoError String)
        (tpls : List (String × Renderable)) (k : String), isPartialName k = true →
        lookupAssoc (renderTemplates parse execT tpls).1 k = none)
    ∧ (∀ (parse : String → String → Option String)
        (execT execT' : String → VTable → Except GoError String)
        (tpls : List (String × Renderable)),
        (∀ (k : String) (scope : VTable), isPartialName k = false →
            execT k scope = execT' k scope) →
        renderTemplates parse execT tpls = renderTemplates parse execT' tpls)
    ∧ (∀ (parse : String → String → Option String)
        (execT : String → VTable → Except GoError String)
        (tpls : List (String × Renderable)) (k : String) (r : Renderable) (e : String),
        (tpls.map Prod.fst).Nodup → (k, r) ∈ tpls → isPartialName k = true →
        parse k r.tpl = some e →
        (renderTemplates parse execT tpls).1 = []) := by
  refine ⟨?_, ?_, ?_⟩
  · intro parse execT tpls k hk
    unfold renderTemplates
    cases hfp : firstParseErr parse tpls (sortTemplates tpls) with
    | some pe => simp [lookupAssoc]
    | none =>
        simp only []
        rw [renderFold_spec]
        simp only [List.nil_append]
        apply lookupAssoc_keysMap_none
        intro hmem
        have hpred := (List.mem_filter.mp hmem).2
        simp [hk] at hpred
  · intro parse execT execT' tpls hexec
    unfold renderTemplates
    cases hfp : firstParseErr parse tpls (sortTemplates tpls) with
    | some pe => rfl
    | none =>
        simp only []
        rw [renderFold_spec, renderFold_spec]
        have hmap : ∀ k ∈ (sortTemplates tpls).filter (fun k => !isPartialName k),
            renderTemplate execT k (lookupRend tpls k)
              = renderTemplate execT' k (lookupRend tpls k) := by
          intro k hkf
          have hnp : isPartialName k = false := by
            have := (List.mem_filter.mp hkf).2
            simpa using this
          unfold renderTemplate
          rw [hexec k _ hnp]
        have hm1 : ((sortTemplates tpls).filter (fun k => !isPartialName k)).map
              (fun k => (k, (renderTemplate execT k (lookupRend tpls k)).1))
            = ((sortTemplates tpls).filter (fun k => !isPartialName k)).map
              (fun k => (k, (renderTemplate execT' k (lookupRend tpls k)).1)) :=
          List.map_congr_left (fun k hkf => by rw [hmap k hkf])
        have hm2 : ((sortTemplates tpls).filter (fun k => !isPartialName k)).map
              (fun k => (renderTemplate execT k (lookupRend tpls k)).2)
            = ((sortTemplates tpls).filter (fun k => !isPartialName k)).map
              (fun k => (renderTemplate execT' k (lookupRend tpls k)).2) :=
          List.map_congr_left (fun k hkf => by rw [hmap k hkf])
        rw [hm1, hm2]
  · intro parse execT tpls k r e hnd hm hk hp
    have hlr : lookupRend tpls k = r := by
      unfold lookupRend
      rw [lookupAssoc_of_mem_nodup tpls k r hnd hm]
      rfl
    have hkk : k ∈ sortTemplates tpls :=
      (sortTemplates_perm tpls).mem_iff.mpr (List.mem_map.mpr ⟨(k, r), hm, rfl⟩)
    have hfail : parse k (lookupRend tpls k).tpl ≠ none := by
      rw [hlr, hp]
      simp
    have hsome := firstParseErr_some_of parse tpls (sortTemplates tpls) k hkk hfail
    cases hpe : firstParseErr parse tpls (sortTemplates tpls) with
    | none => exact absurd hpe hsome
    | some pe =>
        unfold renderTemplates
        rw [hpe]

/-- C8 witness: a successfully parsed partial that is never included does
not appear in the output map of a concrete render pass. -/
theorem partials_not_rendered_witness :
    lookupAssoc (renderTemplates (fun _ _ => none)
        (fun _ _ => Except.ok "out")
        [("chart/templates/_helpers.tpl", Renderable.mk "x" [] "bp")]).1
      "chart/templates/_helpers.tpl" = none :=
  partials_not_rendered.1 (fun _ _ => none) (fun _ _ => Except.ok "out")
    [("chart/templates/_helpers.tpl", Renderable.mk "x" [] "bp")]
    "chart/templates/_helpers.tpl" (by decide)

/-- C10: when every entry parses, the output map holds a key for every
non-partial entry, a failed execution contributing the empty string rather
than omitting the key, and the aggregate error is non-nil exactly when at
least one non-partial entry's execution failed. -/
theorem renderTemplates_outputs :
    ∀ (parse : String → String → Option String)
      (execT : String → VTable → Except GoError String)
      (tpls : List (String × Renderable)),
      (tpls.map Prod.fst).Nodup →
      (∀ p ∈ tpls, parse p.1 p.2.tpl = none) →
      (∀ p ∈ tpls, isPartialName p.1 = false →
          lookupAssoc (renderTemplates parse execT tpls).1 p.1
            = some ((renderTemplate execT p.1 p.2).1)
          ∧ ((renderTemplate execT p.1 p.2).2 ≠ none →
              lookupAssoc (renderTemplates parse execT tpls).1 p.1 = some ""))
      ∧ ((renderTemplates parse execT tpls).2 ≠ none ↔
          ∃ p ∈ tpls, isPartialName p.1 = false
            ∧ (renderTemplate execT p.1 p.2).2 ≠ none) := by
  intro parse execT tpls hnd hparse
  have hperm := sortTemplates_perm tpls
  have hlook : ∀ p ∈ tpls, lookupRend tpls p.1 = p.2 := by
    intro p hp
    unfold lookupRend
    rw [lookupAssoc_of_mem_nodup tpls p.1 p.2 hnd (by simpa using hp)]
    rfl
  have hfp : firstParseErr parse tpls (sortTemplates tpls) = none := by
    apply firstParseErr_none_of
    intro k hk
    have hkf : k ∈ tpls.map Prod.fst := hperm.mem_iff.mp hk
    obtain ⟨p, hp, hpk⟩ := List.mem_map.mp hkf
    subst hpk
    rw [hlook p hp]
    exact hparse p hp
  have houts : renderTemplates parse execT tpls
      = (((sortTemplates tpls).filter (fun k => !isPartialName k)).map
            (fun k => (k, (renderTemplate execT k (lookupRend tpls k)).1)),
         goErrorsJoin (List.replicate tpls.length (none : Option String)
            ++ ((sortTemplates tpls).filter (fun k => !isPartialName k)).map
                (fun k => (renderTemplate execT k (lookupRend tpls k)).2))) := by
    unfold renderTemplates
    rw [hfp]
    rw [renderFold_spec]
    simp
  constructor
  · intro p hp hnp
    have hkmem : p.1 ∈ sortTemplates tpls :=
      hperm.mem_iff.mpr (List.mem_map.mpr ⟨p, hp, rfl⟩)
    have hkfil : p.1 ∈ (sortTemplates tpls).filter (fun k => !isPartialName k) :=
      List.mem_filter.mpr ⟨hkmem, by simp [hnp]⟩
    constructor
    · rw [houts]
      simp only []
      rw [lookupAssoc_keysMap _ _ _ hkfil, hlook p hp]
    · intro hfail
      have hone : (renderTemplate execT p.1 p.2).1 = "" := by
        unfold renderTemplate at hfail ⊢
        cases hex : execT p.1 (renderTemplateScopeAfter p.1 p.2) with
        | error err => simp
        | ok out =>
            rw [hex] at hfail
            simp at hfail
      rw [houts]
      simp only []
      rw [lookupAssoc_keysMap _ _ _ hkfil, hlook p hp, hone]
  · rw [houts]
    simp only []
    rw [ne_eq, goErrorsJoin_eq_none_iff]
    constructor
    · intro hno
      push_neg at hno
      obtain ⟨e, he, hne⟩ := hno
      rcases List.mem_append.mp he with hrep | hmap
      · exact absurd (List.eq_of_mem_replicate hrep) hne
      · obtain ⟨k, hkfil, hke⟩ := List.mem_map.mp hmap
        have hkkeys := (List.mem_filter.mp hkfil).1
        have hknp : isPartialName k = false := by
          have := (List.mem_filter.mp hkfil).2
          simpa using this
        have hkfst : k ∈ tpls.map Prod.fst := hperm.mem_iff.mp hkkeys
        cases hl : lookupAssoc tpls k with
        | none => exact absurd hl (lookupAssoc_ne_none_of_mem_fst tpls k hkfst)
        | some r =>
            refine ⟨(k, r), lookupAssoc_some_mem tpls k r hl, hknp, ?_⟩
            have hlr : lookupRend tpls k = r := by
              unfold lookupRend
              rw [hl]
              rfl
            rw [hlr] at hke
            rw [hke]
            exact hne
    · rintro ⟨p, hp, hnp, hfail⟩ hall
      apply hfail
      apply hall
      apply List.mem_append_right
      apply List.mem_map.mpr
      refine ⟨p.1, ?_, ?_⟩
      · exact List.mem_filter.mpr
          ⟨hperm.mem_iff.mpr (List.mem_map.mpr ⟨p, hp, rfl⟩), by simp [hnp]⟩
      · rw [hlook p hp]

/-- C10 witness: a concrete one-entry pass whose execution fails maps the
entry to the empty string and yields a non-nil aggregate error. -/
theorem renderTemplates_outputs_witness :
    lookupAssoc (renderTemplates (fun _ _ => none)
        (fun _ _ => Except.error (GoError.mk false "boom"))
        [("a", Renderable.mk "x" [] "bp")]).1 "a"
      = some ((renderTemplate (fun _ _ => Except.error (GoError.mk false "boom"))
          "a" (Renderable.mk "x" [] "bp")).1) :=
  ((renderTemplates_outputs (fun _ _ => none)
      (fun _ _ => Except.error (GoError.mk false "boom"))
      [("a", Renderable.mk "x" [] "bp")] (by simp) (fun p _ => rfl)).1
    ("a", Renderable.mk "x" [] "bp") (by simp) (by decide)).1

theorem recAllTpls_scope (c : Chart) (vals : VTable) (isRoot : Bool) (fullPath : String) :
    ∃ subs : VTable, (recAllTpls c vals isRoot fullPath).2
      = setKey (deriveNextScope (chartName c) vals isRoot) "Subcharts"
          (GoVal.vtable subs) := by
  match c with
  | Chart.mk nm mtype tplSources deps =>
      rw [recAllTpls]
      exact ⟨_, rfl⟩

/-- C1: the scope any chart node's templates receive agrees, away from the
Subcharts key, with the node's derived scope; the root's derived scope
carries the caller Values table verbatim; but a sub-chart whose
Values.<name> lookup in the parent scope fails is left with no Values key
at all (the empty table sits under the misspelled literal key
chartutil.Values instead of Values), rather than with an empty Values
table; a sub-chart whose lookup succeeds receives the sub-table. -/
theorem subchart_values_key_missing :
    (∀ (c : Chart) (vals : VTable) (isRoot : Bool) (fp key : String),
        key ≠ "Subcharts" →
        lookupAssoc (recAllTpls c vals isRoot fp).2 key
          = lookupAssoc (deriveNextScope (chartName c) vals isRoot) key)
    ∧ lookupAssoc (deriveNextScope "root" demoVals true) "Values"
        = some (GoVal.vtable [])
    ∧ lookupAssoc (recAllTpls demoDb (deriveNextScope "root" demoVals true)
          false "root/charts/db").2 "Values" = none
    ∧ lookupAssoc (recAllTpls demoDb (deriveNextScope "root" demoVals true)
          false "root/charts/db").2 "chartutil.Values" = some (GoVal.vtable [])
    ∧ lookupAssoc (deriveNextScope "db"
          [("Values", GoVal.vtable [("db", GoVal.vtable [("port", GoVal.vnum 5432)])])]
          false) "Values"
        = some (GoVal.vtable [("port", GoVal.vnum 5432)]) := by
  have hgen : ∀ (c : Chart) (vals : VTable) (isRoot : Bool) (fp key : String),
      key ≠ "Subcharts" →
      lookupAssoc (recAllTpls c vals isRoot fp).2 key
        = lookupAssoc (deriveNextScope (chartName c) vals isRoot) key := by
    intro c vals isRoot fp key hk
    obtain ⟨subs, hs⟩ := recAllTpls_scope c vals isRoot fp
    rw [hs, lookupAssoc_setKey_other _ _ _ _ hk]
  refine ⟨hgen, by rfl, ?_, ?_, by rfl⟩
  · rw [hgen demoDb _ false _ "Values" (by decide)]
    rfl
  · rw [hgen demoDb _ false _ "chartutil.Values" (by decide)]
    rfl

/-- C1 witness: the general scope conjunct applied at the demonstration
sub-chart for the Release key, which passes through from the parent scope. -/
theorem subchart_values_key_missing_witness :
    lookupAssoc (recAllTpls demoDb (deriveNextScope "root" demoVals true)
        false "root/charts/db").2 "Release"
      = lookupAssoc (deriveNextScope "db" (deriveNextScope "root" demoVals true)
          false) "Release" :=
  subchart_values_key_missing.1 demoDb (deriveNextScope "root" demoVals true)
    false "root/charts/db" "Release" (by decide)

end GoRender

